import Mathlib

/-!
# Verification of the Async-Crawler-Dashboard crawler core

Shallow embedding of `src/advanced_crawler.py` (the crawl engine, storage
manager, fetch retry policy, sitemap resolution and the URL normalizer),
together with theorems settling the frozen specification claims.

URLs are modelled as character lists; the yarl URL parsing used by
`normalize_url` is modelled by an explicit split on the fragment and query
separators, keeping the pre-query part of the URL verbatim.  Machine-level
details of yarl (percent re-quoting, host case normalization) are not
modelled; its observable structure on the query/fragment level is.
-/

set_option maxHeartbeats 1000000

/-- Split a character list at the first occurrence of `c`: returns the part
before and, when `c` occurs, the part after it. -/
def splitFirst (c : Char) : List Char → List Char × Option (List Char)
  | [] => ([], none)
  | x :: xs =>
    if x = c then ([], some xs)
    else
      let r := splitFirst c xs
      (x :: r.1, r.2)

/-- Split a character list at every occurrence of `c`. -/
def splitAll (c : Char) : List Char → List (List Char)
  | [] => [[]]
  | x :: xs =>
    if x = c then [] :: splitAll c xs
    else
      match splitAll c xs with
      | [] => [[x]]
      | a :: r => (x :: a) :: r

/-- One query item `k=v` (yarl exposes a missing value as the empty string). -/
def parseItem (chunk : List Char) : List Char × List Char :=
  match splitFirst '=' chunk with
  | (k, some v) => (k, v)
  | (k, none) => (k, [])

/-- Parse a raw query string into key-value items, dropping empty chunks
(as yarl's query multidict does). -/
def parseQuery (qs : List Char) : List (List Char × List Char) :=
  ((splitAll '&' qs).filter (fun chunk => !chunk.isEmpty)).map parseItem

/-- Serialize one query item; yarl's `with_query` always writes `k=v`. -/
def serializeItem (kv : List Char × List Char) : List Char :=
  kv.1 ++ '=' :: kv.2

/-- Serialize a query item list, `&`-separated. -/
def serializeQuery : List (List Char × List Char) → List Char
  | [] => []
  | [kv] => serializeItem kv
  | kv :: kv2 :: rest => serializeItem kv ++ '&' :: serializeQuery (kv2 :: rest)

/-- The authority (netloc) component of a URL-ish character list: the part
after `scheme://` and before the next `/`, `?` or `#`; `none` when the string
has no `scheme://` part.  Models `urllib.parse.urlparse(...).netloc` and the
host:port component yarl validates. -/
def authorityOf (s : List Char) : Option (List Char) :=
  match splitFirst ':' s with
  | (_, none) => none
  | (_, some rest) =>
    match rest with
    | '/' :: '/' :: tail =>
      some (tail.takeWhile (fun c => c ≠ '/' && c ≠ '?' && c ≠ '#'))
    | _ => none

/-- Modelled yarl parse-failure condition: yarl's `URL(...)` raises
`ValueError` on an absolute URL whose explicit port is not numeric
(`http://host:8x/`), which is the concrete parse failure `normalize_url`
guards against.  `true` means the base parses. -/
def portOk (base : List Char) : Bool :=
  match authorityOf base with
  | none => true
  | some auth =>
    if auth.contains ':' then
      let cand := (auth.reverse.takeWhile (fun c => c ≠ ':')).reverse
      if cand.contains '@' || cand.isEmpty then true
      else cand.all Char.isDigit
    else true

/-- `urlparse(url).netloc` as used by the engine's domain gate
(`AsyncCrawler.process_url`). -/
def netlocOf (url : String) : String :=
  String.mk ((authorityOf url.data).getD [])

/-- Structured view of a URL: the verbatim part before the query, the parsed
query items, and the fragment. -/
structure UrlParts where
  base : List Char
  query : List (List Char × List Char)
  frag : Option (List Char)
deriving DecidableEq

/-- Parse a URL into `UrlParts`; fails exactly when the modelled yarl
parse-failure condition (`portOk`) rejects the pre-query part. -/
def parseURL (l : List Char) : Option UrlParts :=
  let s1 := splitFirst '#' l
  let s2 := splitFirst '?' s1.1
  if portOk s2.1 then
    some ⟨s2.1, (match s2.2 with | none => [] | some qs => parseQuery qs), s1.2⟩
  else none

/-- Re-serialize `UrlParts` the way `str(URL)` does: no `?` when the query is
empty, no `#` when the fragment is absent. -/
def serializeURL (p : UrlParts) : List Char :=
  p.base
    ++ (if p.query.isEmpty then [] else '?' :: serializeQuery p.query)
    ++ (match p.frag with | none => [] | some f => '#' :: f)

/-- Tracking-parameter test from the source: `k.startswith("utm_")`. -/
def utmKey (k : List Char) : Bool :=
  "utm_".data.isPrefixOf k

/-- The value the Python dict comprehension keeps for key `k`: the last value
bound to `k`, starting from `v`. -/
def lastVal (k v : List Char) (rest : List (List Char × List Char)) : List Char :=
  rest.foldl (fun acc kv => if kv.1 = k then kv.2 else acc) v

/-- Worker for `collapseDict`; `seen` holds the keys already emitted. -/
def collapseAux : List (List Char × List Char) → List (List Char) →
    List (List Char × List Char)
  | [], _ => []
  | kv :: rest, seen =>
    if kv.1 ∈ seen then collapseAux rest seen
    else (kv.1, lastVal kv.1 kv.2 rest) :: collapseAux rest (kv.1 :: seen)

/-- Collapse duplicate keys the way the Python dict comprehension
`\x7bk: v for k, v in u.query.items()\x7d` does: first-occurrence order,
last-occurrence value. -/
def collapseDict (l : List (List Char × List Char)) :
    List (List Char × List Char) :=
  collapseAux l []

/-- The query rewrite performed by `normalize_url`: drop `utm_`-keyed items,
then collapse through a dict. -/
def normalizeQuery (q : List (List Char × List Char)) :
    List (List Char × List Char) :=
  collapseDict (q.filter (fun kv => !utmKey kv.1))

/-- Character-list core of `normalize_url`: on parse failure return the input
unchanged, otherwise drop tracking parameters and the fragment and
re-serialize. -/
def normChars (l : List Char) : List Char :=
  match parseURL l with
  | none => l
  | some p => serializeURL ⟨p.base, normalizeQuery p.query, none⟩

/-- `normalize_url` from the source (lines 62-69). -/
def normalize_url (s : String) : String :=
  String.mk (normChars s.data)

/-- Well-formedness of query items as produced by `parseQuery` on a parsed
URL: keys contain no separator characters, values no chunk separators. -/
def QOk (q : List (List Char × List Char)) : Prop :=
  ∀ kv ∈ q, '=' ∉ kv.1 ∧ '&' ∉ kv.1 ∧ '#' ∉ kv.1 ∧ '&' ∉ kv.2 ∧ '#' ∉ kv.2

/-- A row of the `visited` table (StorageManager schema, lines 88-96). -/
structure VisitedRecord where
  url : String
  content_hash : String
  status : Nat
  word_count : Nat
deriving DecidableEq

/-- `StorageManager.is_visited` (lines 99-102): point lookup by primary key. -/
def is_visited (store : List VisitedRecord) (url : String) : Bool :=
  store.any (fun r => r.url == url)

/-- `StorageManager.is_duplicate_content` (lines 104-107): plain equality
lookup on `content_hash`, with no special case for any hash value. -/
def is_duplicate_content (store : List VisitedRecord) (h : String) : Bool :=
  store.any (fun r => r.content_hash == h)

/-- `StorageManager.mark_visited` (lines 109-115): INSERT OR REPLACE keyed
on `url`. -/
def mark_visited (store : List VisitedRecord) (url content_hash : String)
    (status word_count : Nat) : List VisitedRecord :=
  store.filter (fun r => r.url != url) ++ [⟨url, content_hash, status, word_count⟩]

/-- `ArticleData` (lines 49-59). -/
structure ArticleData where
  url : String
  title : String
  text : String
  excerpt : String
  word_count : Nat
  content_hash : String
  author : Option String
  date : Option String
  tags : List String
deriving DecidableEq

/-- Outcome of one network fetch attempt: success, a transient error
(`aiohttp.ClientError` / `asyncio.TimeoutError`, the retried class), or any
other exception. -/
inductive Outcome where
  | ok
  | errTransient
  | errOther
deriving DecidableEq

/-- Result of the tenacity-wrapped `AsyncCrawler.fetch` (lines 276-282):
`success k ds` means the `k`-th attempt returned after sleeping the delays
`ds` (seconds) between attempts; `exhausted` is tenacity's RetryError after
the third transient failure; `raised` is an unretried exception. -/
inductive FetchResult where
  | success (attemptsMade : Nat) (delays : List Nat)
  | exhausted (delays : List Nat)
  | raised (attemptsMade : Nat)
deriving DecidableEq

/-- The sleep tenacity inserts before retrying after attempt `k`.  The
source's `@retry` decorator passes no `wait=` argument, so tenacity's
default `wait_none()` applies: zero seconds regardless of the attempt number
(`wait_exponential` is imported on line 23 but never used). -/
def tenacityWait (_k : Nat) : Nat := 0

/-- The tenacity loop body: `remaining` retries are still allowed after the
current attempt `k` (1-based); models `stop_after_attempt(3)` together with
`retry_if_exception_type((aiohttp.ClientError, asyncio.TimeoutError))`. -/
def fetchRetryGo (att : Nat → Outcome) : Nat → Nat → List Nat → FetchResult
  | remaining, k, delays =>
    match att k with
    | .ok => .success k delays
    | .errOther => .raised k
    | .errTransient =>
      match remaining with
      | 0 => .exhausted delays
      | r + 1 => fetchRetryGo att r (k + 1) (delays ++ [tenacityWait k])

/-- `AsyncCrawler.fetch` under its `@retry` decorator: 3 attempts total. -/
def fetchRetry (att : Nat → Outcome) : FetchResult :=
  fetchRetryGo att 2 1 []

/-- The crawl environment: per-URL fetch-attempt outcomes, the page content
determined by the URL, and the (out-of-scope, opaque) trafilatura/soup
extraction collaborator's output for the page at each URL.  `digest` models
`get_content_hash` (a sha-256 hex digest, lines 71-72) as an opaque digest
function of the text. -/
structure World where
  attempt : String → Nat → Outcome
  extractText : String → Option String
  extractTitle : String → String
  extractAuthor : String → Option String
  extractDate : String → Option String
  extractTags : String → List String
  links : String → List String
  digest : String → String

/-- Split a character list at every character satisfying `p`. -/
def splitAllP (p : Char → Bool) : List Char → List (List Char)
  | [] => [[]]
  | x :: xs =>
    if p x then [] :: splitAllP p xs
    else
      match splitAllP p xs with
      | [] => [[x]]
      | a :: r => (x :: a) :: r

/-- `len(text.split())` (lines 215 and 222): Python's `str.split()` splits
on whitespace runs and drops empty chunks. -/
def pyWordCount (t : String) : Nat :=
  ((splitAllP (fun c => c.isWhitespace) t.data).filter
    (fun w => !w.isEmpty)).length

/-- `text[:300].replace("\n", " ")` (line 221). -/
def pyExcerpt (t : String) : String :=
  String.mk ((t.data.take 300).map (fun c => if c = '\n' then ' ' else c))

/-- The article half of `ContentExtractor.extract` (lines 211-227): an
article is built exactly when trafilatura returned text of more than 30
words. -/
def buildArticle (w : World) (url : String) : Option ArticleData :=
  match w.extractText url with
  | none => none
  | some text =>
    if 30 < pyWordCount text then
      some ⟨url, w.extractTitle url, text, pyExcerpt text, pyWordCount text,
        w.digest text, w.extractAuthor url, w.extractDate url, w.extractTags url⟩
    else none

/-- The engine configuration fields the claims depend on. -/
structure Config where
  restrict_domain : Bool
  max_pages : Nat
deriving DecidableEq

/-- The crawl state shared by the workers.  `fetched` is a ghost log of the
URLs for which `AsyncCrawler.fetch` was invoked, used only to state
non-fetching properties; it has no counterpart in the source state. -/
structure CrawlState where
  store : List VisitedRecord
  articles : List ArticleData
  queue : List String
  pages_processed : Nat
  running : Bool
  fetched : List String
deriving DecidableEq

/-- First half of `AsyncCrawler.process_url` (lines 284-318), up to and
including the duplicate-content lookup: domain gate, dedup gate, fetch with
retries (failure marks the URL visited with empty hash and status 0), link
fan-out behind the same domain gate and a visited check.  Returns the
updated state and `none` when the URL's processing already completed, or
the still-to-be-written article and its duplicate flag. -/
def workStep (cfg : Config) (w : World) (base : String) (st : CrawlState)
    (url : String) : CrawlState × Option (Option ArticleData × Bool) :=
  if cfg.restrict_domain && netlocOf url != base then (st, none)
  else if is_visited st.store url then (st, none)
  else
    let st1 := { st with fetched := st.fetched ++ [url] }
    match fetchRetry (w.attempt url) with
    | .success _ _ =>
      let a := buildArticle w url
      let newLinks := (w.links url).filter
        (fun l => !(cfg.restrict_domain && netlocOf l != base)
          && !is_visited st1.store l)
      let st2 := { st1 with queue := st1.queue ++ newLinks }
      let dup := match a with
        | some art => is_duplicate_content st2.store art.content_hash
        | none => false
      (st2, some (a, dup))
    | _ => ({ st1 with store := mark_visited st1.store url "" 0 0 }, none)

/-- Second half of `AsyncCrawler.process_url` (lines 311-325): write the
article unless its hash was a duplicate, then mark the URL visited with the
article's hash (or an empty hash), status 200, and count the page. -/
def finishStep (st : CrawlState) (url : String) (a : Option ArticleData)
    (dup : Bool) : CrawlState :=
  match a with
  | none =>
    { st with
      store := mark_visited st.store url "" 200 0,
      pages_processed := st.pages_processed + 1 }
  | some art =>
    let st1 := if dup then st else { st with articles := st.articles ++ [art] }
    { st1 with
      store := mark_visited st1.store url art.content_hash 200 art.word_count,
      pages_processed := st1.pages_processed + 1 }

/-- `AsyncCrawler.process_url` (lines 284-328): the sequential per-URL
pipeline, the two halves back to back. -/
def process_url (cfg : Config) (w : World) (base : String) (st : CrawlState)
    (url : String) : CrawlState :=
  match workStep cfg w base st url with
  | (st1, none) => st1
  | (st1, some (a, dup)) => finishStep st1 url a dup

/-- The cap check a worker performs after each processed URL
(`AsyncCrawler.worker`, lines 338-344): a non-zero `max_pages` already
reached flips the stop flag and drains the remaining queue entries without
processing them. -/
def capCheck (cfg : Config) (st : CrawlState) : CrawlState :=
  if cfg.max_pages ≠ 0 ∧ cfg.max_pages ≤ st.pages_processed then
    { st with running := false, queue := [] }
  else st

/-- A single `AsyncCrawler.worker` (lines 330-346) run for `fuel` loop
iterations: while the stop flag is clear, pull the head of the queue,
process it, then run the cap check. -/
def runWorker (cfg : Config) (w : World) (base : String) :
    Nat → CrawlState → CrawlState
  | 0, st => st
  | fuel + 1, st =>
    if st.running then
      match st.queue with
      | [] => st
      | url :: rest =>
        runWorker cfg w base fuel
          (capCheck cfg (process_url cfg w base { st with queue := rest } url))
    else st

/-- Attempt outcomes of a fetch whose first two attempts fail transiently
and whose third succeeds. -/
def attTwoTransient : Nat → Outcome :=
  fun k => if k ≤ 2 then .errTransient else .ok

/-- A world in which every fetch behaves like `attTwoTransient` and no page
yields an article or links. -/
def wRetry : World :=
  ⟨fun _ => attTwoTransient, fun _ => none, fun _ => "", fun _ => none,
    fun _ => none, fun _ => [], fun _ => [], fun t => t⟩

/-- `true` when the tenacity-wrapped fetch raises out of `fetch` (retries
exhausted or a non-retried exception), the condition for the engine's
failure path (line 296). -/
def fetchFailed : FetchResult → Bool
  | .success _ _ => false
  | .exhausted _ => true
  | .raised _ => true

/-- `true` when `needle` occurs as a contiguous subsequence of the second
list. -/
def isSubChars (needle : List Char) : List Char → Bool
  | [] => needle.isEmpty
  | c :: rest => needle.isPrefixOf (c :: rest) || isSubChars needle rest

/-- The `self.base_domain in link` substring containment check of
`SitemapParser.fetch_and_parse` (line 160). -/
def containsSub (base link : String) : Bool :=
  isSubChars base.data link.data

/-- A world whose every fetch raises an unretried exception. -/
def wFailAll : World :=
  ⟨fun _ _ => .errOther, fun _ => none, fun _ => "", fun _ => none,
    fun _ => none, fun _ => [], fun _ => [], fun t => t⟩

/-- Invariant tying the append-only article output to the store: every
written article's hash is present in the store, and no two written articles
share a hash. -/
def ArtInv (st : CrawlState) : Prop :=
  (∀ a ∈ st.articles, ∃ r ∈ st.store, r.content_hash = a.content_hash)
    ∧ st.articles.Pairwise (fun a b => a.content_hash ≠ b.content_hash)

/-- A 31-word text, above the extraction word-count floor. -/
def t31 : String :=
  "w w w w w w w w w w w w w w w w w w w w w w w w w w w w w w w"

/-- A world in which every fetch succeeds on the first attempt and every
page extracts the same 31-word text with digest `"H"` and no links: two
different URLs with identical extracted article text. -/
def wDup : World :=
  ⟨fun _ _ => .ok, fun _ => some t31, fun _ => "T", fun _ => none,
    fun _ => none, fun _ => [], fun _ => [], fun _ => "H"⟩

/-- Position of one worker coroutine inside its loop, at the suspension
points the counterexample schedules need: a URL dequeued from
`queue.get()` but whose `process_url` has not started, or a pipeline
suspended right after the duplicate-content lookup (line 318) with its
write-back (lines 319-325) still pending. -/
inductive WSlot where
  | idle
  | gotUrl (url : String)
  | pendingMark (url : String) (a : Option ArticleData) (dup : Bool)
deriving DecidableEq

/-- Shared crawl state plus the loop positions of two workers. -/
structure MState where
  core : CrawlState
  slot1 : WSlot
  slot2 : WSlot
deriving DecidableEq

/-- Scheduler actions: worker 1 or 2 performs its next block between
suspension points (dequeue; pipeline up to the duplicate lookup; write-back
plus cap check).  Any action list is one legal interleaving of the two
concurrent `AsyncCrawler.worker` coroutines. -/
inductive WAct where
  | deq1
  | deq2
  | work1
  | work2
  | fin1
  | fin2
deriving DecidableEq

/-- One scheduled block of a worker coroutine.  A dequeue happens only
while the worker observed `running` at the top of its loop (line 331); the
pipeline and the write-back of an already-dequeued URL proceed regardless
of the flag, as in the source, where the loop condition is only re-checked
on the next iteration. -/
def mstep (cfg : Config) (w : World) (base : String) (m : MState) :
    WAct → MState
  | .deq1 =>
    if m.core.running then
      match m.core.queue, m.slot1 with
      | u :: rest, .idle =>
        { m with core := { m.core with queue := rest }, slot1 := .gotUrl u }
      | _, _ => m
    else m
  | .deq2 =>
    if m.core.running then
      match m.core.queue, m.slot2 with
      | u :: rest, .idle =>
        { m with core := { m.core with queue := rest }, slot2 := .gotUrl u }
      | _, _ => m
    else m
  | .work1 =>
    match m.slot1 with
    | .gotUrl u =>
      match workStep cfg w base m.core u with
      | (c, none) => { m with core := capCheck cfg c, slot1 := .idle }
      | (c, some (a, dup)) => { m with core := c, slot1 := .pendingMark u a dup }
    | _ => m
  | .work2 =>
    match m.slot2 with
    | .gotUrl u =>
      match workStep cfg w base m.core u with
      | (c, none) => { m with core := capCheck cfg c, slot2 := .idle }
      | (c, some (a, dup)) => { m with core := c, slot2 := .pendingMark u a dup }
    | _ => m
  | .fin1 =>
    match m.slot1 with
    | .pendingMark u a dup =>
      { m with core := capCheck cfg (finishStep m.core u a dup), slot1 := .idle }
    | _ => m
  | .fin2 =>
    match m.slot2 with
    | .pendingMark u a dup =>
      { m with core := capCheck cfg (finishStep m.core u a dup), slot2 := .idle }
    | _ => m

/-- Run a schedule of worker blocks. -/
def mrun (cfg : Config) (w : World) (base : String) (m : MState)
    (acts : List WAct) : MState :=
  acts.foldl (mstep cfg w base) m

/-- A world in which every fetch succeeds immediately and no page yields an
article or links. -/
def wOkEmpty : World :=
  ⟨fun _ _ => .ok, fun _ => none, fun _ => "", fun _ => none,
    fun _ => none, fun _ => [], fun _ => [], fun t => t⟩

/-- The URL chain: `urlOf i` is a run of `i + 1` copies of `a`, so all
links of the chain world are pairwise distinct. -/
def urlOf (i : Nat) : String :=
  String.mk (List.replicate (i + 1) 'a')

/-- An unbounded reachable link graph: every fetch succeeds immediately, no
page yields an article, and page `urlOf i` links exactly to `urlOf (i+1)`. -/
def wChain : World :=
  ⟨fun _ _ => .ok, fun _ => none, fun _ => "", fun _ => none,
    fun _ => none, fun _ => [], fun u => [u ++ "a"], fun t => t⟩

/-- Store contents after the chain's first `k` pages. -/
def storeAt (k : Nat) : List VisitedRecord :=
  (List.range k).map (fun i => ⟨urlOf i, "", 200, 0⟩)

/-- Fetch log after the chain's first `k` pages. -/
def fetchedAt (k : Nat) : List String :=
  (List.range k).map urlOf

/-- A sitemap document tree as `SitemapParser.fetch_and_parse` observes it:
an index of child sitemaps (`<sitemap><loc>` entries, resolved recursively
and concurrently), a terminal page file (`<url><loc>` entries, given as
already-stripped loc texts), or a document whose fetch or parse raised
(non-200 status, connection refused, XML error) — swallowed with a warning
inside the recursive call. -/
inductive Sitemap where
  | index (children : List Sitemap)
  | pages (locs : List String)
  | failed

mutual

/-- `SitemapParser.fetch_and_parse` (lines 133-164): the set of URLs
accumulated into the shared `urls_found` set — each terminal loc is
normalized and kept when the base domain occurs as a substring; children
of an index contribute the union of their resolutions; errors contribute
nothing. -/
def resolveSitemap (base : String) : Sitemap → Finset String
  | .index cs => resolveList base cs
  | .pages ls =>
    ((ls.map normalize_url).filter (fun l => containsSub base l)).toFinset
  | .failed => ∅

/-- Union of the resolutions of a list of child sitemaps. -/
def resolveList (base : String) : List Sitemap → Finset String
  | [] => ∅
  | c :: cs => resolveSitemap base c ∪ resolveList base cs

end

/-- The sitemap seeding step of `AsyncCrawler.setup` (lines 252-270): each
resolved URL not already visited is enqueued; when none was added, the
start URL is enqueued instead. -/
def seedQueue (resolved : Finset String) (store : List VisitedRecord)
    (start : String) : List String :=
  let fresh := resolved.filter (fun u => is_visited store u = false)
  if fresh = ∅ then [start] else fresh.sort (fun a b => a ≤ b)

example : normalize_url "http://e.com/a?x=1&utm_s=2#f" = "http://e.com/a?x=1" := by
  rfl

example : normalize_url "http://e.com:8x/a" = "http://e.com:8x/a" := by
  rfl

example : normalize_url "http://e.com/a?" = "http://e.com/a" := by
  rfl

theorem splitFirst_of_not_mem {c : Char} {l : List Char} (h : c ∉ l) :
    splitFirst c l = (l, none) := by
  induction l with
  | nil => rfl
  | cons x xs ih =>
    simp only [List.mem_cons, not_or] at h
    rw [splitFirst, if_neg (fun hh => h.1 hh.symm)]
    simp [ih h.2]

theorem splitFirst_append {c : Char} {a b : List Char} (h : c ∉ a) :
    splitFirst c (a ++ c :: b) = (a, some b) := by
  induction a with
  | nil => simp [splitFirst]
  | cons x xs ih =>
    simp only [List.mem_cons, not_or] at h
    rw [List.cons_append, splitFirst, if_neg (fun hh => h.1 hh.symm)]
    simp [ih h.2]

theorem mem_splitFirst_fst {c x : Char} {l : List Char}
    (h : x ∈ (splitFirst c l).1) : x ∈ l ∧ x ≠ c := by
  induction l with
  | nil => simp [splitFirst] at h
  | cons y ys ih =>
    rw [splitFirst] at h
    by_cases hy : y = c
    · simp [hy] at h
    · simp only [if_neg hy, List.mem_cons] at h
      rcases h with h | h
      · subst h
        exact ⟨List.mem_cons_self _ _, hy⟩
      · obtain ⟨h1, h2⟩ := ih h
        exact ⟨List.mem_cons_of_mem _ h1, h2⟩

theorem not_mem_splitFirst_fst (c : Char) (l : List Char) :
    c ∉ (splitFirst c l).1 :=
  fun h => (mem_splitFirst_fst h).2 rfl

theorem mem_splitFirst_snd {c x : Char} {l b : List Char}
    (h : (splitFirst c l).2 = some b) (hx : x ∈ b) : x ∈ l := by
  induction l with
  | nil => simp [splitFirst] at h
  | cons y ys ih =>
    rw [splitFirst] at h
    by_cases hy : y = c
    · simp only [if_pos hy] at h
      cases h
      exact List.mem_cons_of_mem _ hx
    · simp only [if_neg hy] at h
      exact List.mem_cons_of_mem _ (ih h)

theorem splitAll_ne_nil (c : Char) (l : List Char) : splitAll c l ≠ [] := by
  cases l with
  | nil => simp [splitAll]
  | cons x xs =>
    rw [splitAll]
    by_cases hx : x = c
    · simp [hx]
    · simp only [if_neg hx]
      rcases hsa : splitAll c xs with _ | ⟨a, r⟩ <;> simp

theorem mem_splitAll {c : Char} {l chunk : List Char}
    (h : chunk ∈ splitAll c l) : ∀ x ∈ chunk, x ∈ l ∧ x ≠ c := by
  induction l generalizing chunk with
  | nil =>
    simp [splitAll] at h
    simp [h]
  | cons y ys ih =>
    rw [splitAll] at h
    by_cases hy : y = c
    · simp only [if_pos hy, List.mem_cons] at h
      rcases h with h | h
      · simp [h]
      · intro x hx
        obtain ⟨h1, h2⟩ := ih h x hx
        exact ⟨List.mem_cons_of_mem _ h1, h2⟩
    · simp only [if_neg hy] at h
      rcases hsa : splitAll c ys with _ | ⟨a, r⟩
      · exact absurd hsa (splitAll_ne_nil c ys)
      · rw [hsa] at h
        simp only [List.mem_cons] at h
        rcases h with h | h
        · subst h
          intro x hx
          rcases List.mem_cons.1 hx with hx | hx
          · subst hx
            exact ⟨List.mem_cons_self _ _, hy⟩
          · have ha : a ∈ splitAll c ys := by
              rw [hsa]; exact List.mem_cons_self _ _
            obtain ⟨h1, h2⟩ := ih ha x hx
            exact ⟨List.mem_cons_of_mem _ h1, h2⟩
        · have hr : chunk ∈ splitAll c ys := by
            rw [hsa]; exact List.mem_cons_of_mem _ h
          intro x hx
          obtain ⟨h1, h2⟩ := ih hr x hx
          exact ⟨List.mem_cons_of_mem _ h1, h2⟩

theorem splitAll_of_not_mem {c : Char} {a : List Char} (h : c ∉ a) :
    splitAll c a = [a] := by
  induction a with
  | nil => rfl
  | cons x xs ih =>
    simp only [List.mem_cons, not_or] at h
    rw [splitAll, if_neg (fun hh => h.1 hh.symm), ih h.2]

theorem splitAll_append {c : Char} {a b : List Char} (h : c ∉ a) :
    splitAll c (a ++ c :: b) = a :: splitAll c b := by
  induction a with
  | nil => simp [splitAll]
  | cons x xs ih =>
    simp only [List.mem_cons, not_or] at h
    rw [List.cons_append, splitAll, if_neg (fun hh => h.1 hh.symm), ih h.2]

theorem serializeItem_ne_nil (kv : List Char × List Char) :
    serializeItem kv ≠ [] := by
  rcases kv with ⟨k, v⟩
  cases k <;> simp [serializeItem]

theorem mem_serializeItem {x : Char} {kv : List Char × List Char}
    (h : x ∈ serializeItem kv) : x ∈ kv.1 ∨ x = '=' ∨ x ∈ kv.2 := by
  simp only [serializeItem, List.mem_append, List.mem_cons] at h
  tauto

theorem serializeQuery_cons (kv : List Char × List Char)
    {rest : List (List Char × List Char)} (h : rest ≠ []) :
    serializeQuery (kv :: rest) = serializeItem kv ++ '&' :: serializeQuery rest := by
  cases rest with
  | nil => exact absurd rfl h
  | cons kv2 rest2 => rfl

theorem amp_not_mem_serializeItem {kv : List Char × List Char}
    (h1 : '&' ∉ kv.1) (h2 : '&' ∉ kv.2) : '&' ∉ serializeItem kv := by
  intro h
  rcases mem_serializeItem h with h | h | h
  · exact h1 h
  · exact absurd h (by decide)
  · exact h2 h

theorem hash_not_mem_serializeQuery {q : List (List Char × List Char)}
    (h : QOk q) : '#' ∉ serializeQuery q := by
  induction q with
  | nil => simp [serializeQuery]
  | cons kv rest ih =>
    obtain ⟨-, -, hk, -, hv⟩ := h kv (List.mem_cons_self _ _)
    have hrest : QOk rest := fun kv2 hkv2 => h kv2 (List.mem_cons_of_mem _ hkv2)
    have hitem : '#' ∉ serializeItem kv := by
      intro hx
      rcases mem_serializeItem hx with hx | hx | hx
      · exact hk hx
      · exact absurd hx (by decide)
      · exact hv hx
    cases rest with
    | nil => simpa [serializeQuery] using hitem
    | cons kv2 rest2 =>
      rw [serializeQuery_cons kv (by simp)]
      simp only [List.mem_append, List.mem_cons, not_or]
      exact ⟨hitem, by decide, ih hrest⟩

theorem parseQuery_serializeQuery {q : List (List Char × List Char)}
    (h : QOk q) : parseQuery (serializeQuery q) = q := by
  induction q with
  | nil => rfl
  | cons kv rest ih =>
    obtain ⟨hk1, hk2, -, hv1, -⟩ := h kv (List.mem_cons_self _ _)
    have hrest : QOk rest := fun kv2 hkv2 => h kv2 (List.mem_cons_of_mem _ hkv2)
    have hamp : '&' ∉ serializeItem kv := amp_not_mem_serializeItem hk2 hv1
    have hitem : parseItem (serializeItem kv) = kv := by
      rcases kv with ⟨k, v⟩
      rw [parseItem, serializeItem]
      rw [splitFirst_append hk1]
    cases rest with
    | nil =>
      rw [serializeQuery]
      rw [parseQuery, splitAll_of_not_mem hamp]
      simp [serializeItem_ne_nil kv, hitem]
    | cons kv2 rest2 =>
      rw [serializeQuery_cons kv (by simp)]
      rw [parseQuery, splitAll_append hamp]
      rw [List.filter_cons_of_pos (by simp [serializeItem_ne_nil kv])]
      rw [List.map_cons, hitem]
      have : parseQuery (serializeQuery (kv2 :: rest2)) = kv2 :: rest2 := ih hrest
      rw [parseQuery] at this
      rw [this]

theorem mem_parseItem_fst {x : Char} {chunk : List Char}
    (h : x ∈ (parseItem chunk).1) : x ∈ chunk ∧ x ≠ '=' := by
  rw [parseItem] at h
  rcases hs : splitFirst '=' chunk with ⟨k, v⟩
  rw [hs] at h
  cases v with
  | none =>
    simp only at h
    exact mem_splitFirst_fst (c := '=') (l := chunk) (by rw [hs]; exact h)
  | some v0 =>
    simp only at h
    exact mem_splitFirst_fst (c := '=') (l := chunk) (by rw [hs]; exact h)

theorem mem_parseItem_snd {x : Char} {chunk : List Char}
    (h : x ∈ (parseItem chunk).2) : x ∈ chunk := by
  rw [parseItem] at h
  rcases hs : splitFirst '=' chunk with ⟨k, v⟩
  rw [hs] at h
  cases v with
  | none => simp at h
  | some v0 =>
    simp only at h
    exact mem_splitFirst_snd (c := '=') (l := chunk) (b := v0) (by rw [hs]) h

theorem mem_parseQuery {qs : List Char} {kv : List Char × List Char}
    (h : kv ∈ parseQuery qs) :
    (∀ x ∈ kv.1, x ∈ qs ∧ x ≠ '&' ∧ x ≠ '=') ∧
      (∀ x ∈ kv.2, x ∈ qs ∧ x ≠ '&') := by
  rw [parseQuery] at h
  simp only [List.mem_map, List.mem_filter] at h
  obtain ⟨chunk, ⟨hchunk, -⟩, hkv⟩ := h
  subst hkv
  constructor
  · intro x hx
    obtain ⟨hx1, hx2⟩ := mem_parseItem_fst hx
    obtain ⟨hq, hamp⟩ := mem_splitAll hchunk x hx1
    exact ⟨hq, hamp, hx2⟩
  · intro x hx
    have hx1 := mem_parseItem_snd hx
    obtain ⟨hq, hamp⟩ := mem_splitAll hchunk x hx1
    exact ⟨hq, hamp⟩

/-- Facts available about the components of a successfully parsed URL. -/
theorem parseURL_facts {l : List Char} {p : UrlParts}
    (h : parseURL l = some p) :
    '#' ∉ p.base ∧ '?' ∉ p.base ∧ portOk p.base = true ∧ QOk p.query := by
  rw [parseURL] at h
  by_cases hpo : portOk (splitFirst '?' (splitFirst '#' l).1).1 = true
  · rw [if_pos hpo] at h
    cases h
    refine ⟨?_, ?_, hpo, ?_⟩
    · intro hx
      have h1 := (mem_splitFirst_fst hx).1
      exact (mem_splitFirst_fst h1).2 rfl
    · exact not_mem_splitFirst_fst _ _
    · intro kv hkv
      rcases hq : (splitFirst '?' (splitFirst '#' l).1).2 with _ | qs
      · rw [hq] at hkv
        simp at hkv
      · rw [hq] at hkv
        simp only at hkv
        obtain ⟨hk, hv⟩ := mem_parseQuery hkv
        have hqsub : ∀ x, x ∈ qs → x ≠ '#' := by
          intro x hx
          have h1 := mem_splitFirst_snd hq hx
          exact (mem_splitFirst_fst h1).2
        refine ⟨?_, ?_, ?_, ?_, ?_⟩
        · intro hx
          exact (hk _ hx).2.2 rfl
        · intro hx
          exact (hk _ hx).2.1 rfl
        · intro hx
          exact hqsub _ (hk _ hx).1 rfl
        · intro hx
          exact (hv _ hx).2 rfl
        · intro hx
          exact hqsub _ (hv _ hx).1 rfl
  · rw [if_neg hpo] at h
    cases h

theorem lastVal_cases (k v : List Char) (rest : List (List Char × List Char)) :
    lastVal k v rest = v ∨ ∃ kv ∈ rest, lastVal k v rest = kv.2 := by
  induction rest generalizing v with
  | nil => exact Or.inl rfl
  | cons kv2 r ih =>
    have hstep : lastVal k v (kv2 :: r)
        = lastVal k (if kv2.1 = k then kv2.2 else v) r := rfl
    rw [hstep]
    by_cases hk : kv2.1 = k
    · rw [if_pos hk]
      rcases ih kv2.2 with h | ⟨kv3, hm, he⟩
      · exact Or.inr ⟨kv2, List.mem_cons_self _ _, h⟩
      · exact Or.inr ⟨kv3, List.mem_cons_of_mem _ hm, he⟩
    · rw [if_neg hk]
      rcases ih v with h | ⟨kv3, hm, he⟩
      · exact Or.inl h
      · exact Or.inr ⟨kv3, List.mem_cons_of_mem _ hm, he⟩

theorem lastVal_of_not_mem {k : List Char} {rest : List (List Char × List Char)}
    (h : ∀ kv ∈ rest, kv.1 ≠ k) (v : List Char) : lastVal k v rest = v := by
  induction rest generalizing v with
  | nil => rfl
  | cons kv2 r ih =>
    have hstep : lastVal k v (kv2 :: r)
        = lastVal k (if kv2.1 = k then kv2.2 else v) r := rfl
    rw [hstep, if_neg (h kv2 (List.mem_cons_self _ _))]
    exact ih (fun kv hm => h kv (List.mem_cons_of_mem _ hm)) v

theorem mem_collapseAux {l : List (List Char × List Char)}
    {seen : List (List Char)} {kv : List Char × List Char}
    (h : kv ∈ collapseAux l seen) :
    (∃ kv0 ∈ l, kv.1 = kv0.1) ∧ (∃ kv1 ∈ l, kv.2 = kv1.2) := by
  induction l generalizing seen with
  | nil => simp [collapseAux] at h
  | cons kv0 rest ih =>
    rw [collapseAux] at h
    by_cases hs : kv0.1 ∈ seen
    · rw [if_pos hs] at h
      obtain ⟨⟨a, ha, ha2⟩, ⟨b, hb, hb2⟩⟩ := ih h
      exact ⟨⟨a, List.mem_cons_of_mem _ ha, ha2⟩, ⟨b, List.mem_cons_of_mem _ hb, hb2⟩⟩
    · rw [if_neg hs] at h
      rcases List.mem_cons.1 h with h | h
      · subst h
        refine ⟨⟨kv0, List.mem_cons_self _ _, rfl⟩, ?_⟩
        rcases lastVal_cases kv0.1 kv0.2 rest with he | ⟨kv1, hm, he⟩
        · exact ⟨kv0, List.mem_cons_self _ _, he⟩
        · exact ⟨kv1, List.mem_cons_of_mem _ hm, he⟩
      · obtain ⟨⟨a, ha, ha2⟩, ⟨b, hb, hb2⟩⟩ := ih h
        exact ⟨⟨a, List.mem_cons_of_mem _ ha, ha2⟩, ⟨b, List.mem_cons_of_mem _ hb, hb2⟩⟩

theorem collapseAux_key_not_seen {l : List (List Char × List Char)}
    {seen : List (List Char)} {kv : List Char × List Char}
    (h : kv ∈ collapseAux l seen) : kv.1 ∉ seen := by
  induction l generalizing seen with
  | nil => simp [collapseAux] at h
  | cons kv0 rest ih =>
    rw [collapseAux] at h
    by_cases hs : kv0.1 ∈ seen
    · rw [if_pos hs] at h
      exact ih h
    · rw [if_neg hs] at h
      rcases List.mem_cons.1 h with h | h
      · subst h
        exact hs
      · have := ih h
        intro hmem
        exact this (List.mem_cons_of_mem _ hmem)

theorem collapseAux_keys_nodup (l : List (List Char × List Char))
    (seen : List (List Char)) : ((collapseAux l seen).map Prod.fst).Nodup := by
  induction l generalizing seen with
  | nil => simp [collapseAux]
  | cons kv0 rest ih =>
    rw [collapseAux]
    by_cases hs : kv0.1 ∈ seen
    · rw [if_pos hs]
      exact ih seen
    · rw [if_neg hs]
      rw [List.map_cons]
      refine List.Nodup.cons ?_ (ih (kv0.1 :: seen))
      intro hmem
      simp only [List.mem_map] at hmem
      obtain ⟨kv1, hkv1, he⟩ := hmem
      have := collapseAux_key_not_seen hkv1
      rw [he] at this
      exact this (List.mem_cons_self _ _)

theorem collapseAux_of_nodup {l : List (List Char × List Char)}
    {seen : List (List Char)} (hn : (l.map Prod.fst).Nodup)
    (hd : ∀ kv ∈ l, kv.1 ∉ seen) : collapseAux l seen = l := by
  induction l generalizing seen with
  | nil => rfl
  | cons kv0 rest ih =>
    rw [List.map_cons, List.nodup_cons] at hn
    rw [collapseAux, if_neg (hd kv0 (List.mem_cons_self _ _))]
    have hne : ∀ kv ∈ rest, kv.1 ≠ kv0.1 := by
      intro kv hm he
      exact hn.1 (List.mem_map.2 ⟨kv, hm, he⟩)
    rw [lastVal_of_not_mem hne]
    have hd2 : ∀ kv ∈ rest, kv.1 ∉ kv0.1 :: seen := by
      intro kv hm
      simp only [List.mem_cons, not_or]
      exact ⟨hne kv hm, hd kv (List.mem_cons_of_mem _ hm)⟩
    rw [ih hn.2 hd2]

theorem mem_normalizeQuery {q : List (List Char × List Char)}
    {kv : List Char × List Char} (h : kv ∈ normalizeQuery q) :
    (∃ kv0 ∈ q, kv.1 = kv0.1) ∧ (∃ kv1 ∈ q, kv.2 = kv1.2) ∧
      utmKey kv.1 = false := by
  rw [normalizeQuery, collapseDict] at h
  obtain ⟨⟨kv0, hkv0, he0⟩, ⟨kv1, hkv1, he1⟩⟩ := mem_collapseAux h
  rw [List.mem_filter] at hkv0 hkv1
  refine ⟨⟨kv0, hkv0.1, he0⟩, ⟨kv1, hkv1.1, he1⟩, ?_⟩
  rw [he0]
  simpa using hkv0.2

theorem normalizeQuery_QOk {q : List (List Char × List Char)} (h : QOk q) :
    QOk (normalizeQuery q) := by
  intro kv hkv
  obtain ⟨⟨kv0, hkv0, he0⟩, ⟨kv1, hkv1, he1⟩, -⟩ := mem_normalizeQuery hkv
  obtain ⟨h1, h2, h3, -, -⟩ := h kv0 hkv0
  obtain ⟨-, -, -, h4, h5⟩ := h kv1 hkv1
  rw [he0, he1]
  exact ⟨h1, h2, h3, h4, h5⟩

theorem normalizeQuery_idem (q : List (List Char × List Char)) :
    normalizeQuery (normalizeQuery q) = normalizeQuery q := by
  have hf : (normalizeQuery q).filter (fun kv => !utmKey kv.1)
      = normalizeQuery q := by
    apply List.filter_eq_self.2
    intro kv hkv
    have := (mem_normalizeQuery hkv).2.2
    simp [this]
  rw [normalizeQuery, hf]
  apply collapseAux_of_nodup
  · rw [normalizeQuery, collapseDict]
    exact collapseAux_keys_nodup _ _
  · simp

theorem parseURL_serializeURL {base : List Char}
    {q : List (List Char × List Char)} (hb : '#' ∉ base) (hq2 : '?' ∉ base)
    (hp : portOk base = true) (hq : QOk q) :
    parseURL (serializeURL ⟨base, q, none⟩) = some ⟨base, q, none⟩ := by
  cases q with
  | nil =>
    have hs : serializeURL ⟨base, [], none⟩ = base := by
      simp [serializeURL]
    rw [hs, parseURL]
    rw [splitFirst_of_not_mem hb]
    simp only
    rw [splitFirst_of_not_mem hq2]
    simp [hp]
  | cons kv rest =>
    have hs : serializeURL ⟨base, kv :: rest, none⟩
        = base ++ '?' :: serializeQuery (kv :: rest) := by
      simp [serializeURL]
    rw [hs]
    have hnh : '#' ∉ base ++ '?' :: serializeQuery (kv :: rest) := by
      simp only [List.mem_append, List.mem_cons, not_or]
      exact ⟨hb, by decide, hash_not_mem_serializeQuery hq⟩
    rw [parseURL]
    rw [splitFirst_of_not_mem hnh]
    simp only
    rw [splitFirst_append hq2]
    simp only [hp, if_pos]
    rw [parseQuery_serializeQuery hq]

theorem normChars_idem (l : List Char) : normChars (normChars l) = normChars l := by
  rcases hp : parseURL l with _ | p
  · have h1 : normChars l = l := by rw [normChars, hp]
    rw [h1, h1]
  · obtain ⟨hb, hq2, hpo, hqok⟩ := parseURL_facts hp
    have h1 : normChars l = serializeURL ⟨p.base, normalizeQuery p.query, none⟩ := by
      rw [normChars, hp]
    rw [h1]
    have h2 := parseURL_serializeURL (q := normalizeQuery p.query) hb hq2 hpo
      (normalizeQuery_QOk hqok)
    rw [normChars, h2]
    simp only
    rw [normalizeQuery_idem]

/-- C8: `normalize_url` is idempotent: its output is a fixed point. -/
theorem normalize_url_idempotent (s : String) :
    normalize_url (normalize_url s) = normalize_url s := by
  show String.mk (normChars (normChars s.data)) = String.mk (normChars s.data)
  rw [normChars_idem]

/-- C9: two URLs that differ only by tracking (`utm_`-prefixed) query
parameters and/or by their fragment normalize identically, and a URL that
fails to parse is returned unchanged by `normalize_url`. -/
theorem normalize_url_tracking_invariant (u1 u2 s : String)
    (p1 p2 : UrlParts)
    (h1 : parseURL u1.data = some p1) (h2 : parseURL u2.data = some p2)
    (hbase : p1.base = p2.base)
    (hquery : p1.query.filter (fun kv => !utmKey kv.1)
      = p2.query.filter (fun kv => !utmKey kv.1))
    (hfail : parseURL s.data = none) :
    normalize_url u1 = normalize_url u2 ∧ normalize_url s = s := by
  constructor
  · show String.mk (normChars u1.data) = String.mk (normChars u2.data)
    rw [normChars, h1, normChars, h2]
    simp only
    rw [normalizeQuery, hquery, hbase, normalizeQuery]
  · show String.mk (normChars s.data) = s
    rw [normChars, hfail]

/-- Witness for C9 at concrete inputs: a `utm_source` parameter and a
fragment are stripped, and a URL with a non-numeric port is returned
unchanged. -/
theorem normalize_url_tracking_invariant_witness :
    normalize_url "http://e.com/a?x=1&utm_source=2#frag" = normalize_url "http://e.com/a?x=1"
      ∧ normalize_url "http://e.com:9z/a" = "http://e.com:9z/a" :=
  normalize_url_tracking_invariant
    "http://e.com/a?x=1&utm_source=2#frag" "http://e.com/a?x=1" "http://e.com:9z/a"
    ⟨"http://e.com/a".data, [("x".data, "1".data), ("utm_source".data, "2".data)],
      some "frag".data⟩
    ⟨"http://e.com/a".data, [("x".data, "1".data)], none⟩
    (by rfl) (by rfl) (by rfl) (by rfl) (by rfl)

/-- C1 counterexample: a store holding a fetch-failure row (as written by
`mark_visited(url, content_hash="", status=0)`) makes
`is_duplicate_content` with the empty hash report a duplicate — the claim
that the empty hash never reports one fails on the code. -/
theorem is_duplicate_content_empty_hash_counterexample :
    is_duplicate_content (mark_visited [] "http://e.com/x" "" 0 0) "" = true := by
  rfl

/-- C1 amended: `is_duplicate_content` is a plain equality lookup with no
special case for the empty hash: after any `mark_visited` writing an empty
hash (fetch failures, no-article pages) it returns `true` for `""`, and it
returns `false` for `""` exactly on stores in which no record has an empty
`content_hash`. -/
theorem is_duplicate_content_empty_hash (store store2 : List VisitedRecord)
    (url : String) (status wc : Nat)
    (h : ∀ r ∈ store2, r.content_hash ≠ "") :
    is_duplicate_content (mark_visited store url "" status wc) "" = true
      ∧ is_duplicate_content store2 "" = false := by
  constructor
  · rw [is_duplicate_content, mark_visited]
    simp
  · rw [is_duplicate_content]
    simp only [List.any_eq_false]
    intro r hr
    simpa using h r hr

/-- Witness for C1's amended statement at concrete stores. -/
theorem is_duplicate_content_empty_hash_witness :
    is_duplicate_content (mark_visited [] "http://e.com/x" "" 0 0) "" = true
      ∧ is_duplicate_content [⟨"http://e.com/y", "abc", 200, 40⟩] "" = false :=
  is_duplicate_content_empty_hash [] [⟨"http://e.com/y", "abc", 200, 40⟩]
    "http://e.com/x" 0 0 (by decide)

/-- C2, as the code behaves: a fetch failing transiently twice succeeds on
the third attempt (3 attempts total) but with ZERO seconds of delay between
attempts — tenacity's default `wait_none`, not the claimed doubling
exponential backoff; a non-transient error raises on the first attempt with
no retry; three transient failures exhaust the retries after two zero
delays; and the transparently retried fetch still yields a status-200
visit record. -/
theorem fetch_retry_no_backoff :
    fetchRetry attTwoTransient = .success 3 [0, 0]
      ∧ fetchRetry (fun _ => .errOther) = .raised 1
      ∧ fetchRetry (fun _ => .errTransient) = .exhausted [0, 0]
      ∧ (process_url ⟨false, 0⟩ wRetry "" ⟨[], [], [], 0, true, []⟩
          "http://e.com/x").store
        = [⟨"http://e.com/x", "", 200, 0⟩] := by
  refine ⟨rfl, rfl, rfl, rfl⟩

/-- `workStep` under a failing domain gate: untouched state. -/
theorem workStep_eq_gate (cfg : Config) (w : World) (base : String)
    (st : CrawlState) (url : String)
    (h : (cfg.restrict_domain && netlocOf url != base) = true) :
    workStep cfg w base st url = (st, none) := by
  rw [workStep, if_pos h]

/-- `workStep` on an already-visited URL: untouched state. -/
theorem workStep_eq_visited (cfg : Config) (w : World) (base : String)
    (st : CrawlState) (url : String)
    (hg : (cfg.restrict_domain && netlocOf url != base) = false)
    (hv : is_visited st.store url = true) :
    workStep cfg w base st url = (st, none) := by
  rw [workStep, if_neg (by rw [hg]; simp), if_pos hv]

/-- `workStep` when the fetch fails: the URL is marked visited with empty
hash and status 0 and processing completes. -/
theorem workStep_eq_fail (cfg : Config) (w : World) (base : String)
    (st : CrawlState) (url : String)
    (hg : (cfg.restrict_domain && netlocOf url != base) = false)
    (hv : is_visited st.store url = false)
    (hf : fetchFailed (fetchRetry (w.attempt url)) = true) :
    workStep cfg w base st url
      = ({ st with
            store := mark_visited st.store url "" 0 0,
            fetched := st.fetched ++ [url] }, none) := by
  rw [workStep, if_neg (by rw [hg]; simp), if_neg (by rw [hv]; simp)]
  rcases hr : fetchRetry (w.attempt url) with ⟨k1, ds1⟩ | ⟨ds1⟩ | ⟨k1⟩
  · rw [hr] at hf
    simp [fetchFailed] at hf
  · rfl
  · rfl

/-- `workStep` when the fetch succeeds: the fetch is logged, the filtered
links are appended to the queue, and the pending article together with its
duplicate flag is returned. -/
theorem workStep_eq_success (cfg : Config) (w : World) (base : String)
    (st : CrawlState) (url : String) (k : Nat) (ds : List Nat)
    (hg : (cfg.restrict_domain && netlocOf url != base) = false)
    (hv : is_visited st.store url = false)
    (hs : fetchRetry (w.attempt url) = .success k ds) :
    workStep cfg w base st url
      = ({ st with
            fetched := st.fetched ++ [url],
            queue := st.queue ++ (w.links url).filter
              (fun l => !(cfg.restrict_domain && netlocOf l != base)
                && !is_visited st.store l) },
          some (buildArticle w url,
            match buildArticle w url with
            | some art => is_duplicate_content st.store art.content_hash
            | none => false)) := by
  rw [workStep, if_neg (by rw [hg]; simp), if_neg (by rw [hv]; simp), hs]

theorem process_url_eq_gate (cfg : Config) (w : World) (base : String)
    (st : CrawlState) (url : String)
    (h : (cfg.restrict_domain && netlocOf url != base) = true) :
    process_url cfg w base st url = st := by
  rw [process_url, workStep_eq_gate cfg w base st url h]

theorem process_url_eq_visited (cfg : Config) (w : World) (base : String)
    (st : CrawlState) (url : String)
    (hg : (cfg.restrict_domain && netlocOf url != base) = false)
    (hv : is_visited st.store url = true) :
    process_url cfg w base st url = st := by
  rw [process_url, workStep_eq_visited cfg w base st url hg hv]

theorem process_url_eq_fail (cfg : Config) (w : World) (base : String)
    (st : CrawlState) (url : String)
    (hg : (cfg.restrict_domain && netlocOf url != base) = false)
    (hv : is_visited st.store url = false)
    (hf : fetchFailed (fetchRetry (w.attempt url)) = true) :
    process_url cfg w base st url
      = { st with
          store := mark_visited st.store url "" 0 0,
          fetched := st.fetched ++ [url] } := by
  rw [process_url, workStep_eq_fail cfg w base st url hg hv hf]

theorem process_url_eq_success (cfg : Config) (w : World) (base : String)
    (st : CrawlState) (url : String) (k : Nat) (ds : List Nat)
    (hg : (cfg.restrict_domain && netlocOf url != base) = false)
    (hv : is_visited st.store url = false)
    (hs : fetchRetry (w.attempt url) = .success k ds) :
    process_url cfg w base st url
      = finishStep
          { st with
            fetched := st.fetched ++ [url],
            queue := st.queue ++ (w.links url).filter
              (fun l => !(cfg.restrict_domain && netlocOf l != base)
                && !is_visited st.store l) }
          url (buildArticle w url)
          (match buildArticle w url with
            | some art => is_duplicate_content st.store art.content_hash
            | none => false) := by
  rw [process_url, workStep_eq_success cfg w base st url k ds hg hv hs]

theorem mark_visited_is_visited (store : List VisitedRecord)
    (url ch : String) (s wc : Nat) :
    is_visited (mark_visited store url ch s wc) url = true := by
  rw [is_visited, mark_visited]
  simp

theorem mark_visited_preserves_visited {store : List VisitedRecord}
    {u : String} (h : is_visited store u = true) (u2 ch : String)
    (s wc : Nat) : is_visited (mark_visited store u2 ch s wc) u = true := by
  rw [is_visited, List.any_eq_true] at h
  obtain ⟨r, hr, hru⟩ := h
  rw [is_visited, mark_visited, List.any_eq_true]
  by_cases he : r.url = u2
  · refine ⟨⟨u2, ch, s, wc⟩, by simp, ?_⟩
    simp only [beq_iff_eq] at hru ⊢
    rw [← he, hru]
  · refine ⟨r, ?_, hru⟩
    rw [List.mem_append]
    exact Or.inl (List.mem_filter.2 ⟨hr, by simp [he]⟩)

theorem mark_visited_twice (store : List VisitedRecord) (u a d : String)
    (b c e f : Nat) :
    mark_visited (mark_visited store u a b c) u d e f
      = mark_visited store u d e f := by
  rw [mark_visited, mark_visited, mark_visited, List.filter_append]
  simp [List.filter_filter]

theorem mark_visited_of_not_visited {store : List VisitedRecord}
    {url : String} (h : is_visited store url = false) (ch : String)
    (s wc : Nat) :
    mark_visited store url ch s wc = store ++ [⟨url, ch, s, wc⟩] := by
  rw [mark_visited]
  congr 1
  apply List.filter_eq_self.2
  intro r hr
  rw [is_visited, List.any_eq_false] at h
  simpa using h r hr

theorem finishStep_store_cases (st : CrawlState) (url : String)
    (a : Option ArticleData) (dup : Bool) :
    ∃ ch wc, (finishStep st url a dup).store
      = mark_visited st.store url ch 200 wc := by
  rcases a with _ | art
  · exact ⟨"", 0, rfl⟩
  · cases dup <;> exact ⟨art.content_hash, art.word_count, rfl⟩

theorem finishStep_queue (st : CrawlState) (url : String)
    (a : Option ArticleData) (dup : Bool) :
    (finishStep st url a dup).queue = st.queue := by
  rcases a with _ | art
  · rfl
  · cases dup <;> rfl

theorem process_url_store_cases (cfg : Config) (w : World) (base : String)
    (st : CrawlState) (url : String) :
    (process_url cfg w base st url).store = st.store
      ∨ ∃ ch s wc, (process_url cfg w base st url).store
          = mark_visited st.store url ch s wc := by
  by_cases hg : (cfg.restrict_domain && netlocOf url != base) = true
  · rw [process_url_eq_gate cfg w base st url hg]
    exact Or.inl rfl
  · have hg2 : (cfg.restrict_domain && netlocOf url != base) = false := by
      simpa using hg
    by_cases hv : is_visited st.store url = true
    · rw [process_url_eq_visited cfg w base st url hg2 hv]
      exact Or.inl rfl
    · have hv2 : is_visited st.store url = false := by simpa using hv
      rcases hres : fetchRetry (w.attempt url) with ⟨k, ds⟩ | ⟨ds⟩ | ⟨k⟩
      · rw [process_url_eq_success cfg w base st url k ds hg2 hv2 hres]
        obtain ⟨ch, wc, hf⟩ := finishStep_store_cases _ url (buildArticle w url) _
        rw [hf]
        exact Or.inr ⟨ch, 200, wc, rfl⟩
      · rw [process_url_eq_fail cfg w base st url hg2 hv2 (by rw [hres]; rfl)]
        exact Or.inr ⟨"", 0, 0, rfl⟩
      · rw [process_url_eq_fail cfg w base st url hg2 hv2 (by rw [hres]; rfl)]
        exact Or.inr ⟨"", 0, 0, rfl⟩

theorem process_url_preserves_visited (cfg : Config) (w : World)
    (base : String) {st : CrawlState} {u : String}
    (h : is_visited st.store u = true) (u2 : String) :
    is_visited (process_url cfg w base st u2).store u = true := by
  rcases process_url_store_cases cfg w base st u2 with hc | ⟨ch, s, wc, hc⟩
  · rw [hc]; exact h
  · rw [hc]; exact mark_visited_preserves_visited h u2 ch s wc

theorem workStep_queue_mem (cfg : Config) (w : World) (base : String)
    (st : CrawlState) (url l : String)
    (hrd : cfg.restrict_domain = true)
    (h : l ∈ (workStep cfg w base st url).1.queue) :
    l ∈ st.queue ∨ netlocOf l = base := by
  by_cases hg : (cfg.restrict_domain && netlocOf url != base) = true
  · rw [workStep_eq_gate cfg w base st url hg] at h
    exact Or.inl h
  · have hg2 : (cfg.restrict_domain && netlocOf url != base) = false := by
      simpa using hg
    by_cases hv : is_visited st.store url = true
    · rw [workStep_eq_visited cfg w base st url hg2 hv] at h
      exact Or.inl h
    · have hv2 : is_visited st.store url = false := by simpa using hv
      rcases hres : fetchRetry (w.attempt url) with ⟨k, ds⟩ | ⟨ds⟩ | ⟨k⟩
      · rw [workStep_eq_success cfg w base st url k ds hg2 hv2 hres] at h
        simp only [List.mem_append] at h
        rcases h with h | h
        · exact Or.inl h
        · right
          have hp := (List.mem_filter.1 h).2
          simp only [hrd, Bool.true_and, Bool.and_eq_true, Bool.not_eq_true',
            bne_eq_false_iff_eq] at hp
          exact hp.1
      · rw [workStep_eq_fail cfg w base st url hg2 hv2 (by rw [hres]; rfl)] at h
        exact Or.inl h
      · rw [workStep_eq_fail cfg w base st url hg2 hv2 (by rw [hres]; rfl)] at h
        exact Or.inl h

theorem process_url_queue_mem (cfg : Config) (w : World) (base : String)
    (st : CrawlState) (url l : String)
    (hrd : cfg.restrict_domain = true)
    (h : l ∈ (process_url cfg w base st url).queue) :
    l ∈ st.queue ∨ netlocOf l = base := by
  rw [process_url] at h
  rcases hws : workStep cfg w base st url with ⟨st1, pending⟩
  rw [hws] at h
  rcases pending with _ | ⟨a, dup⟩
  · exact workStep_queue_mem cfg w base st url l hrd (by rw [hws]; exact h)
  · rw [finishStep_queue] at h
    exact workStep_queue_mem cfg w base st url l hrd (by rw [hws]; exact h)

/-- C6: when a URL's fetch fails (retries exhausted or an unretried
exception), the engine immediately records `markVisited(url, hash="",
status=0, wordCount=0)` and stops processing that URL (no article, no
links, no page count); the record makes the URL visited, any state whose
store holds the URL is left untouched by a renewed processing attempt, and
visited-ness survives the processing of any further URL — so the crawl
engine never re-attempts the failed URL. -/
theorem fetch_failure_recorded (cfg : Config) (w : World) (base : String)
    (st st2 : CrawlState) (url u2 : String)
    (hg : (cfg.restrict_domain && netlocOf url != base) = false)
    (hv : is_visited st.store url = false)
    (hf : fetchFailed (fetchRetry (w.attempt url)) = true)
    (hvis : is_visited st2.store url = true) :
    process_url cfg w base st url
        = { st with
            store := mark_visited st.store url "" 0 0,
            fetched := st.fetched ++ [url] }
      ∧ is_visited (mark_visited st.store url "" 0 0) url = true
      ∧ process_url cfg w base st2 url = st2
      ∧ is_visited (process_url cfg w base st2 u2).store url = true := by
  refine ⟨process_url_eq_fail cfg w base st url hg hv hf,
    mark_visited_is_visited st.store url "" 0 0, ?_, ?_⟩
  · by_cases hg2 : (cfg.restrict_domain && netlocOf url != base) = true
    · exact process_url_eq_gate cfg w base st2 url hg2
    · exact process_url_eq_visited cfg w base st2 url (by simpa using hg2) hvis
  · exact process_url_preserves_visited cfg w base hvis u2

/-- Witness for C6 at a concrete failing fetch. -/
theorem fetch_failure_recorded_witness :
    process_url ⟨false, 0⟩ wFailAll "" ⟨[], [], [], 0, true, []⟩ "http://e.com/x"
        = { store := [⟨"http://e.com/x", "", 0, 0⟩], articles := [], queue := [],
            pages_processed := 0, running := true, fetched := ["http://e.com/x"] }
      ∧ is_visited (mark_visited [] "http://e.com/x" "" 0 0) "http://e.com/x" = true
      ∧ process_url ⟨false, 0⟩ wFailAll ""
          ⟨[⟨"http://e.com/x", "", 0, 0⟩], [], [], 0, true, []⟩ "http://e.com/x"
        = ⟨[⟨"http://e.com/x", "", 0, 0⟩], [], [], 0, true, []⟩
      ∧ is_visited (process_url ⟨false, 0⟩ wFailAll ""
          ⟨[⟨"http://e.com/x", "", 0, 0⟩], [], [], 0, true, []⟩
          "http://e.com/y").store "http://e.com/x" = true := by
  have h := fetch_failure_recorded ⟨false, 0⟩ wFailAll ""
    ⟨[], [], [], 0, true, []⟩ ⟨[⟨"http://e.com/x", "", 0, 0⟩], [], [], 0, true, []⟩
    "http://e.com/x" "http://e.com/y" (by rfl) (by rfl) (by rfl) (by rfl)
  exact h

/-- C10: with domain restriction enabled, the engine's domain gate silently
drops any URL whose netloc is not exactly the seed netloc — the state
(store, output, queue, ghost fetch log) is untouched, so no visit is
recorded and the URL is never fetched; the gate applies at link fan-out
too, so every queue entry after processing was either already queued or
has exactly the base netloc; yet the SitemapResolver's substring
containment check accepts a subdomain variant such as
`http://sub.example.com/page` for base domain `example.com`, whose netloc
differs from the base. -/
theorem domain_gate_drops (cfg : Config) (w : World) (base : String)
    (st st2 : CrawlState) (url url2 l : String)
    (hrd : cfg.restrict_domain = true)
    (hn : netlocOf url ≠ base)
    (hq : l ∈ (process_url cfg w base st2 url2).queue) :
    process_url cfg w base st url = st
      ∧ (l ∈ st2.queue ∨ netlocOf l = base)
      ∧ containsSub "example.com" "http://sub.example.com/page" = true
      ∧ netlocOf "http://sub.example.com/page" ≠ "example.com" := by
  refine ⟨?_, process_url_queue_mem cfg w base st2 url2 l hrd hq, by rfl, by decide⟩
  apply process_url_eq_gate
  rw [hrd]
  simp [bne_iff_ne, hn]

/-- Witness for C10 at concrete inputs: the subdomain URL accepted by the
sitemap substring check is dropped untouched by the engine gate. -/
theorem domain_gate_drops_witness :
    process_url ⟨true, 0⟩ wFailAll "example.com"
        ⟨[], [], [], 0, true, []⟩ "http://sub.example.com/page"
        = ⟨[], [], [], 0, true, []⟩
      ∧ ("http://a.com/z" ∈ (["http://a.com/z"] : List String)
          ∨ netlocOf "http://a.com/z" = "example.com")
      ∧ containsSub "example.com" "http://sub.example.com/page" = true
      ∧ netlocOf "http://sub.example.com/page" ≠ "example.com" := by
  have h := domain_gate_drops ⟨true, 0⟩ wFailAll "example.com"
    ⟨[], [], [], 0, true, []⟩ ⟨[], [], ["http://a.com/z"], 0, true, []⟩
    "http://sub.example.com/page" "http://sub.example.com/page" "http://a.com/z"
    (by rfl) (by decide) (by decide)
  exact h

theorem finishStep_none (st : CrawlState) (url : String) (dup : Bool) :
    finishStep st url none dup
      = { st with
          store := mark_visited st.store url "" 200 0,
          pages_processed := st.pages_processed + 1 } := rfl

theorem finishStep_some_true (st : CrawlState) (url : String)
    (art : ArticleData) :
    finishStep st url (some art) true
      = { st with
          store := mark_visited st.store url art.content_hash 200 art.word_count,
          pages_processed := st.pages_processed + 1 } := rfl

theorem finishStep_some_false (st : CrawlState) (url : String)
    (art : ArticleData) :
    finishStep st url (some art) false
      = { st with
          articles := st.articles ++ [art],
          store := mark_visited st.store url art.content_hash 200 art.word_count,
          pages_processed := st.pages_processed + 1 } := rfl

theorem is_duplicate_content_iff (store : List VisitedRecord) (h : String) :
    is_duplicate_content store h = true ↔ ∃ r ∈ store, r.content_hash = h := by
  rw [is_duplicate_content, List.any_eq_true]
  simp

theorem is_duplicate_content_mark (store : List VisitedRecord)
    (url ch : String) (s wc : Nat) :
    is_duplicate_content (mark_visited store url ch s wc) ch = true := by
  rw [is_duplicate_content_iff]
  exact ⟨⟨url, ch, s, wc⟩, List.mem_append_right _ (List.mem_singleton.2 rfl), rfl⟩

theorem is_visited_mark_of_ne {store : List VisitedRecord} {u2 u1 : String}
    (h : is_visited store u2 = false) (hne : u1 ≠ u2) (ch : String)
    (s wc : Nat) : is_visited (mark_visited store u1 ch s wc) u2 = false := by
  rw [is_visited, List.any_eq_false]
  intro r hr
  rcases List.mem_append.1 hr with hr | hr
  · rw [is_visited, List.any_eq_false] at h
    exact h r (List.mem_filter.1 hr).1
  · rw [List.mem_singleton.1 hr]
    simpa using hne

theorem process_url_art_inv (cfg : Config) (w : World) (base : String)
    (st : CrawlState) (url : String) (h : ArtInv st) :
    ArtInv (process_url cfg w base st url) := by
  obtain ⟨h1, h2⟩ := h
  by_cases hg : (cfg.restrict_domain && netlocOf url != base) = true
  · rw [process_url_eq_gate cfg w base st url hg]
    exact ⟨h1, h2⟩
  · have hg2 : (cfg.restrict_domain && netlocOf url != base) = false := by
      simpa using hg
    by_cases hv : is_visited st.store url = true
    · rw [process_url_eq_visited cfg w base st url hg2 hv]
      exact ⟨h1, h2⟩
    · have hv2 : is_visited st.store url = false := by simpa using hv
      have hgrow : ∀ (ch : String) (s wc : Nat) (a : ArticleData),
          (∃ r ∈ st.store, r.content_hash = a.content_hash) →
          ∃ r ∈ mark_visited st.store url ch s wc,
            r.content_hash = a.content_hash := by
        intro ch s wc a ⟨r, hr, hrh⟩
        rw [mark_visited_of_not_visited hv2]
        exact ⟨r, List.mem_append_left _ hr, hrh⟩
      rcases hres : fetchRetry (w.attempt url) with ⟨k, ds⟩ | ⟨ds⟩ | ⟨k⟩
      · rw [process_url_eq_success cfg w base st url k ds hg2 hv2 hres]
        rcases hb : buildArticle w url with _ | art
        · exact ⟨fun a ha => hgrow "" 200 0 a (h1 a ha), h2⟩
        · suffices hgen : ∀ dup : Bool,
              dup = is_duplicate_content st.store art.content_hash →
              ∀ stB : CrawlState, stB.store = st.store →
                stB.articles = st.articles →
                ArtInv (finishStep stB url (some art) dup) by
            exact hgen _ rfl _ rfl rfl
          intro dup hd stB hsB haB
          cases dup with
          | true =>
            rw [finishStep_some_true, ArtInv]
            simp only [hsB, haB]
            exact ⟨fun a ha => hgrow art.content_hash 200 art.word_count a (h1 a ha), h2⟩
          | false =>
            have hdup2 : is_duplicate_content st.store art.content_hash = false :=
              hd.symm
            rw [finishStep_some_false, ArtInv]
            simp only [hsB, haB]
            constructor
            · intro a ha
              rcases List.mem_append.1 ha with ha | ha
              · exact hgrow art.content_hash 200 art.word_count a (h1 a ha)
              · rw [List.mem_singleton.1 ha]
                refine ⟨⟨url, art.content_hash, 200, art.word_count⟩, ?_, rfl⟩
                rw [mark_visited_of_not_visited hv2]
                exact List.mem_append_right _ (List.mem_singleton.2 rfl)
            · rw [List.pairwise_append]
              refine ⟨h2, List.pairwise_singleton _ _, ?_⟩
              intro a ha b hb
              rw [List.mem_singleton.1 hb]
              obtain ⟨r, hr, hrh⟩ := h1 a ha
              intro he
              rw [is_duplicate_content, List.any_eq_false] at hdup2
              have := hdup2 r hr
              rw [hrh, he] at this
              simp at this
      · rw [process_url_eq_fail cfg w base st url hg2 hv2 (by rw [hres]; rfl)]
        exact ⟨fun a ha => hgrow "" 0 0 a (h1 a ha), h2⟩
      · rw [process_url_eq_fail cfg w base st url hg2 hv2 (by rw [hres]; rfl)]
        exact ⟨fun a ha => hgrow "" 0 0 a (h1 a ha), h2⟩

theorem capCheck_art_inv (cfg : Config) {st : CrawlState} (h : ArtInv st) :
    ArtInv (capCheck cfg st) := by
  rw [capCheck]
  split
  · exact ⟨h.1, h.2⟩
  · exact h

theorem runWorker_art_inv (cfg : Config) (w : World) (base : String)
    (fuel : Nat) : ∀ st : CrawlState, ArtInv st →
    ArtInv (runWorker cfg w base fuel st) := by
  induction fuel with
  | zero => exact fun st h => h
  | succ f ih =>
    intro st h
    rw [runWorker]
    by_cases hr : st.running = true
    · rw [if_pos hr]
      rcases hq : st.queue with _ | ⟨url, rest⟩
      · exact h
      · exact ih _ (capCheck_art_inv cfg
          (process_url_art_inv cfg w base { st with queue := rest } url ⟨h.1, h.2⟩))
    · rw [if_neg hr]
      exact h

theorem process_url_success_some (cfg : Config) (w : World) (base : String)
    (st : CrawlState) (url : String) (k : Nat) (ds : List Nat)
    (art : ArticleData) (dup : Bool)
    (hg : (cfg.restrict_domain && netlocOf url != base) = false)
    (hv : is_visited st.store url = false)
    (hs : fetchRetry (w.attempt url) = .success k ds)
    (hb : buildArticle w url = some art)
    (hd : is_duplicate_content st.store art.content_hash = dup) :
    process_url cfg w base st url
      = finishStep
          { st with
            fetched := st.fetched ++ [url],
            queue := st.queue ++ (w.links url).filter
              (fun l => !(cfg.restrict_domain && netlocOf l != base)
                && !is_visited st.store l) }
          url (some art) dup := by
  rw [process_url_eq_success cfg w base st url k ds hg hv hs, hb, ← hd]

/-- C4 amended (sequential single-worker semantics; the concurrent
check-then-write race is excluded, see the counterexample): the engine
never writes two ArticleRecords sharing a `contentHash`, and processing two
fetch-succeeding pages with identical extracted text at different URLs
appends exactly one ArticleRecord (the first URL's) while both URLs receive
a VisitedRecord, the second carrying the same content hash and status 200
without its article body being written. -/
theorem content_dedup_single_worker
    (cfg : Config) (w : World) (base : String)
    (fuel : Nat) (q0 : List String) (s0 : List VisitedRecord)
    (st0 : CrawlState) (u1 u2 t : String) (k1 k2 : Nat) (d1 d2 : List Nat)
    (hg1 : (cfg.restrict_domain && netlocOf u1 != base) = false)
    (hg2 : (cfg.restrict_domain && netlocOf u2 != base) = false)
    (hv1 : is_visited st0.store u1 = false)
    (hv2 : is_visited st0.store u2 = false)
    (hne : u1 ≠ u2)
    (hs1 : fetchRetry (w.attempt u1) = .success k1 d1)
    (hs2 : fetchRetry (w.attempt u2) = .success k2 d2)
    (ht1 : w.extractText u1 = some t)
    (ht2 : w.extractText u2 = some t)
    (hwc : 30 < pyWordCount t)
    (hdup : is_duplicate_content st0.store (w.digest t) = false) :
    ((runWorker cfg w base fuel ⟨s0, [], q0, 0, true, []⟩).articles).Pairwise
        (fun a b => a.content_hash ≠ b.content_hash)
      ∧ (process_url cfg w base (process_url cfg w base st0 u1) u2).articles
          = st0.articles ++ [⟨u1, w.extractTitle u1, t, pyExcerpt t,
              pyWordCount t, w.digest t, w.extractAuthor u1, w.extractDate u1,
              w.extractTags u1⟩]
      ∧ is_visited
          (process_url cfg w base (process_url cfg w base st0 u1) u2).store
          u1 = true
      ∧ (⟨u2, w.digest t, 200, pyWordCount t⟩ : VisitedRecord)
          ∈ (process_url cfg w base (process_url cfg w base st0 u1) u2).store := by
  have hb1 : buildArticle w u1
      = some ⟨u1, w.extractTitle u1, t, pyExcerpt t, pyWordCount t, w.digest t,
          w.extractAuthor u1, w.extractDate u1, w.extractTags u1⟩ := by
    rw [buildArticle, ht1]
    simp [hwc]
  have hb2 : buildArticle w u2
      = some ⟨u2, w.extractTitle u2, t, pyExcerpt t, pyWordCount t, w.digest t,
          w.extractAuthor u2, w.extractDate u2, w.extractTags u2⟩ := by
    rw [buildArticle, ht2]
    simp [hwc]
  have h1 : process_url cfg w base st0 u1
      = { st0 with
          articles := st0.articles
            ++ [⟨u1, w.extractTitle u1, t, pyExcerpt t, pyWordCount t,
                w.digest t, w.extractAuthor u1, w.extractDate u1,
                w.extractTags u1⟩],
          store := mark_visited st0.store u1 (w.digest t) 200 (pyWordCount t),
          queue := st0.queue ++ (w.links u1).filter
            (fun l => !(cfg.restrict_domain && netlocOf l != base)
              && !is_visited st0.store l),
          pages_processed := st0.pages_processed + 1,
          fetched := st0.fetched ++ [u1] } := by
    rw [process_url_success_some cfg w base st0 u1 k1 d1 _ false hg1 hv1 hs1 hb1
      hdup]
    rw [finishStep_some_false]
  rw [h1]
  have hvm : is_visited
      (mark_visited st0.store u1 (w.digest t) 200 (pyWordCount t)) u2
        = false := is_visited_mark_of_ne hv2 hne _ _ _
  have hdm : is_duplicate_content
      (mark_visited st0.store u1 (w.digest t) 200 (pyWordCount t))
      (w.digest t) = true := is_duplicate_content_mark _ _ _ _ _
  have h2 : process_url cfg w base
      { st0 with
        articles := st0.articles
          ++ [⟨u1, w.extractTitle u1, t, pyExcerpt t, pyWordCount t,
              w.digest t, w.extractAuthor u1, w.extractDate u1,
              w.extractTags u1⟩],
        store := mark_visited st0.store u1 (w.digest t) 200 (pyWordCount t),
        queue := st0.queue ++ (w.links u1).filter
          (fun l => !(cfg.restrict_domain && netlocOf l != base)
            && !is_visited st0.store l),
        pages_processed := st0.pages_processed + 1,
        fetched := st0.fetched ++ [u1] } u2
      = finishStep
          { st0 with
            articles := st0.articles
              ++ [⟨u1, w.extractTitle u1, t, pyExcerpt t, pyWordCount t,
                  w.digest t, w.extractAuthor u1, w.extractDate u1,
                  w.extractTags u1⟩],
            store := mark_visited st0.store u1 (w.digest t) 200 (pyWordCount t),
            queue := (st0.queue ++ (w.links u1).filter
                (fun l => !(cfg.restrict_domain && netlocOf l != base)
                  && !is_visited st0.store l))
              ++ (w.links u2).filter
                (fun l => !(cfg.restrict_domain && netlocOf l != base)
                  && !is_visited
                    (mark_visited st0.store u1 (w.digest t) 200 (pyWordCount t)) l),
            pages_processed := st0.pages_processed + 1,
            fetched := (st0.fetched ++ [u1]) ++ [u2] } u2
          (some ⟨u2, w.extractTitle u2, t, pyExcerpt t, pyWordCount t,
            w.digest t, w.extractAuthor u2, w.extractDate u2,
            w.extractTags u2⟩) true := by
    exact process_url_success_some cfg w base _ u2 k2 d2 _ true hg2 hvm hs2 hb2
      hdm
  rw [h2, finishStep_some_true]
  refine ⟨?_, rfl, ?_, ?_⟩
  · exact (runWorker_art_inv cfg w base fuel _ ⟨by simp, List.Pairwise.nil⟩).2
  · exact mark_visited_preserves_visited
      (mark_visited_is_visited st0.store u1 (w.digest t) 200 (pyWordCount t))
      u2 _ _ _
  · exact List.mem_append_right _ (List.mem_singleton.2 rfl)

/-- Witness for C4's amended statement at two concrete same-text pages. -/
theorem content_dedup_single_worker_witness :
    ((runWorker ⟨false, 0⟩ wDup "" 0 ⟨[], [], [], 0, true, []⟩).articles).Pairwise
        (fun a b => a.content_hash ≠ b.content_hash)
      ∧ (process_url ⟨false, 0⟩ wDup ""
            (process_url ⟨false, 0⟩ wDup "" ⟨[], [], [], 0, true, []⟩ "a")
            "b").articles
          = [] ++ [⟨"a", "T", t31, pyExcerpt t31, 31, "H", none, none, []⟩]
      ∧ is_visited
          (process_url ⟨false, 0⟩ wDup ""
            (process_url ⟨false, 0⟩ wDup "" ⟨[], [], [], 0, true, []⟩ "a")
            "b").store "a" = true
      ∧ (⟨"b", "H", 200, 31⟩ : VisitedRecord)
          ∈ (process_url ⟨false, 0⟩ wDup ""
              (process_url ⟨false, 0⟩ wDup "" ⟨[], [], [], 0, true, []⟩ "a")
              "b").store := by
  have h := content_dedup_single_worker ⟨false, 0⟩ wDup "" 0 [] []
    ⟨[], [], [], 0, true, []⟩ "a" "b" t31 1 1 [] []
    rfl rfl rfl rfl (by decide) rfl rfl rfl rfl (by decide) rfl
  exact h

/-- C3 counterexample: with `max_pages = 1` and two concurrent workers that
both dequeue before either finishes, the engine processes and writes a 2nd
page — the claimed "no (N+1)th page is processed or written" fails under a
legal interleaving, because the cap is only checked after a processed page
and an already-dequeued in-flight URL still completes its pipeline. -/
theorem max_pages_cap_counterexample :
    (mrun ⟨false, 1⟩ wOkEmpty ""
        ⟨⟨[], [], ["a", "b"], 0, true, []⟩, .idle, .idle⟩
        [.deq1, .deq2, .work1, .fin1, .work2, .fin2]).core.pages_processed = 2
      ∧ is_visited (mrun ⟨false, 1⟩ wOkEmpty ""
          ⟨⟨[], [], ["a", "b"], 0, true, []⟩, .idle, .idle⟩
          [.deq1, .deq2, .work1, .fin1, .work2, .fin2]).core.store "b" = true
      ∧ (mrun ⟨false, 1⟩ wOkEmpty ""
          ⟨⟨[], [], ["a", "b"], 0, true, []⟩, .idle, .idle⟩
          [.deq1, .deq2, .work1, .fin1, .work2, .fin2]).core.running = false := by
  decide

/-- C4 counterexample: two concurrent workers fetching different URLs with
identical extracted text can both pass the duplicate-content lookup before
either write-back happens, so two ArticleRecords sharing one `contentHash`
are written — the claimed "exactly one ArticleRecord, no two share a
contentHash" fails under a legal interleaving of the check-then-write
pipeline. -/
theorem content_dedup_counterexample :
    ((mrun ⟨false, 0⟩ wDup ""
        ⟨⟨[], [], ["a", "b"], 0, true, []⟩, .idle, .idle⟩
        [.deq1, .deq2, .work1, .work2, .fin1, .fin2]).core.articles).map
        (fun a => a.content_hash) = ["H", "H"]
      ∧ ((mrun ⟨false, 0⟩ wDup ""
          ⟨⟨[], [], ["a", "b"], 0, true, []⟩, .idle, .idle⟩
          [.deq1, .deq2, .work1, .work2, .fin1, .fin2]).core.articles).map
          (fun a => a.url) = ["a", "b"] := by
  decide

theorem capCheck_stop {cfg : Config} {st : CrawlState}
    (h1 : cfg.max_pages ≠ 0) (h2 : cfg.max_pages ≤ st.pages_processed) :
    capCheck cfg st = { st with running := false, queue := [] } := by
  rw [capCheck, if_pos ⟨h1, h2⟩]

theorem capCheck_go {cfg : Config} {st : CrawlState}
    (h : ¬cfg.max_pages ≤ st.pages_processed) : capCheck cfg st = st := by
  rw [capCheck, if_neg]
  intro hc
  exact h hc.2

theorem runWorker_stopped {cfg : Config} {w : World} {base : String}
    {fuel : Nat} {st : CrawlState} (h : st.running = false) :
    runWorker cfg w base fuel st = st := by
  cases fuel with
  | zero => rfl
  | succ f =>
    rw [runWorker, if_neg]
    rw [h]
    exact Bool.false_ne_true

theorem finishStep_pp (st : CrawlState) (url : String)
    (a : Option ArticleData) (dup : Bool) :
    (finishStep st url a dup).pages_processed = st.pages_processed + 1 := by
  rcases a with _ | art
  · rfl
  · cases dup <;> rfl

theorem workStep_pp (cfg : Config) (w : World) (base : String)
    (st : CrawlState) (url : String) :
    (workStep cfg w base st url).1.pages_processed = st.pages_processed := by
  by_cases hg : (cfg.restrict_domain && netlocOf url != base) = true
  · rw [workStep_eq_gate cfg w base st url hg]
  · have hg2 : (cfg.restrict_domain && netlocOf url != base) = false := by
      simpa using hg
    by_cases hv : is_visited st.store url = true
    · rw [workStep_eq_visited cfg w base st url hg2 hv]
    · have hv2 : is_visited st.store url = false := by simpa using hv
      rcases hres : fetchRetry (w.attempt url) with ⟨k, ds⟩ | ⟨ds⟩ | ⟨k⟩
      · rw [workStep_eq_success cfg w base st url k ds hg2 hv2 hres]
      · rw [workStep_eq_fail cfg w base st url hg2 hv2 (by rw [hres]; rfl)]
      · rw [workStep_eq_fail cfg w base st url hg2 hv2 (by rw [hres]; rfl)]

theorem process_url_pp_le (cfg : Config) (w : World) (base : String)
    (st : CrawlState) (url : String) :
    (process_url cfg w base st url).pages_processed
      ≤ st.pages_processed + 1 := by
  rw [process_url]
  have hpp := workStep_pp cfg w base st url
  rcases hws : workStep cfg w base st url with ⟨st1, pending⟩
  rw [hws] at hpp
  have hpp2 : st1.pages_processed = st.pages_processed := hpp
  rcases pending with _ | ⟨a, dup⟩
  · show st1.pages_processed ≤ st.pages_processed + 1
    omega
  · show (finishStep st1 url a dup).pages_processed ≤ st.pages_processed + 1
    rw [finishStep_pp, hpp2]

theorem runWorker_cap (cfg : Config) (w : World) (base : String) :
    ∀ (fuel : Nat) (st : CrawlState), cfg.max_pages ≠ 0 →
    st.pages_processed ≤ cfg.max_pages →
    (st.running = true → st.pages_processed < cfg.max_pages) →
    (runWorker cfg w base fuel st).pages_processed ≤ cfg.max_pages := by
  intro fuel
  induction fuel with
  | zero => exact fun st h0 h1 h2 => h1
  | succ f ih =>
    intro st h0 h1 h2
    rw [runWorker]
    by_cases hr : st.running = true
    · rw [if_pos hr]
      rcases hq : st.queue with _ | ⟨url, rest⟩
      · exact h1
      · show (runWorker cfg w base f (capCheck cfg (process_url cfg w base
          { st with queue := rest } url))).pages_processed ≤ cfg.max_pages
        have hple : (process_url cfg w base { st with queue := rest }
            url).pages_processed ≤ st.pages_processed + 1 :=
          process_url_pp_le cfg w base { st with queue := rest } url
        have hlt := h2 hr
        by_cases hcap : cfg.max_pages
            ≤ (process_url cfg w base { st with queue := rest }
              url).pages_processed
        · rw [capCheck_stop h0 hcap]
          apply ih
          · exact h0
          · show (process_url cfg w base { st with queue := rest }
                url).pages_processed ≤ cfg.max_pages
            omega
          · intro hcontra
            exact absurd hcontra (by simp)
        · rw [capCheck_go hcap]
          apply ih
          · exact h0
          · omega
          · intro _
            omega
    · rw [if_neg hr]
      exact h1

theorem urlOf_inj {i j : Nat} (h : urlOf i = urlOf j) : i = j := by
  have hd : List.replicate (i + 1) 'a' = List.replicate (j + 1) 'a' :=
    congrArg String.data h
  have hlen := congrArg List.length hd
  simp only [List.length_replicate] at hlen
  omega

theorem urlOf_succ (k : Nat) : urlOf k ++ "a" = urlOf (k + 1) := by
  show String.mk (List.replicate (k + 1) 'a' ++ ['a'])
    = String.mk (List.replicate (k + 2) 'a')
  rw [← List.replicate_succ']

theorem is_visited_storeAt {k j : Nat} (h : k ≤ j) :
    is_visited (storeAt k) (urlOf j) = false := by
  rw [is_visited, List.any_eq_false]
  intro r hr
  rw [storeAt] at hr
  simp only [List.mem_map, List.mem_range] at hr
  obtain ⟨i, hi, rfl⟩ := hr
  show ¬(urlOf i == urlOf j) = true
  simp only [beq_iff_eq]
  intro he
  have := urlOf_inj he
  omega

theorem chain_step (N k : Nat) :
    process_url ⟨false, N⟩ wChain ""
        ⟨storeAt k, [], [], k, true, fetchedAt k⟩ (urlOf k)
      = ⟨storeAt (k + 1), [], [urlOf (k + 1)], k + 1, true,
          fetchedAt (k + 1)⟩ := by
  have hv : is_visited (storeAt k) (urlOf k) = false :=
    is_visited_storeAt (le_refl k)
  rw [process_url_eq_success ⟨false, N⟩ wChain "" _ (urlOf k) 1 [] rfl hv rfl]
  rw [show buildArticle wChain (urlOf k) = none from rfl]
  rw [finishStep_none]
  show (⟨mark_visited (storeAt k) (urlOf k) "" 200 0, [],
      [] ++ List.filter (fun l => !is_visited (storeAt k) l) [urlOf k ++ "a"],
      k + 1, true, fetchedAt k ++ [urlOf k]⟩ : CrawlState) = _
  have h1 : mark_visited (storeAt k) (urlOf k) "" 200 0 = storeAt (k + 1) := by
    rw [mark_visited_of_not_visited hv, storeAt, storeAt, List.range_succ,
      List.map_append]
    rfl
  have h2 : fetchedAt k ++ [urlOf k] = fetchedAt (k + 1) := by
    rw [fetchedAt, fetchedAt, List.range_succ, List.map_append]
    rfl
  have h3 : List.filter (fun l => !is_visited (storeAt k) l) [urlOf (k + 1)]
      = [urlOf (k + 1)] := by
    simp [is_visited_storeAt (Nat.le_succ k)]
  rw [urlOf_succ, h1, h2, h3]
  rfl

theorem chain_run (N d : Nat) : ∀ k fuel, k + (d + 1) = N → d + 1 ≤ fuel →
    runWorker ⟨false, N⟩ wChain "" fuel
        ⟨storeAt k, [], [urlOf k], k, true, fetchedAt k⟩
      = ⟨storeAt N, [], [], N, false, fetchedAt N⟩ := by
  induction d with
  | zero =>
    intro k fuel hkN hfuel
    rcases fuel with _ | f
    · omega
    · rw [runWorker, if_pos rfl]
      show runWorker ⟨false, N⟩ wChain "" f
          (capCheck ⟨false, N⟩ (process_url ⟨false, N⟩ wChain ""
            ⟨storeAt k, [], [], k, true, fetchedAt k⟩ (urlOf k))) = _
      rw [chain_step, capCheck_stop (by show N ≠ 0; omega)
        (by show N ≤ k + 1; omega)]
      have hN2 : k + 1 = N := by omega
      rw [hN2]
      exact runWorker_stopped rfl
  | succ d ih =>
    intro k fuel hkN hfuel
    rcases fuel with _ | f
    · omega
    · rw [runWorker, if_pos rfl]
      show runWorker ⟨false, N⟩ wChain "" f
          (capCheck ⟨false, N⟩ (process_url ⟨false, N⟩ wChain ""
            ⟨storeAt k, [], [], k, true, fetchedAt k⟩ (urlOf k))) = _
      rw [chain_step, capCheck_go (by show ¬N ≤ k + 1; omega)]
      exact ih (k + 1) f (by omega) (by omega)

/-- C3 amended (single-worker semantics; with concurrent workers an
in-flight page already dequeued when the cap is reached still completes and
writes, see the counterexample): a single worker on an arbitrarily large
reachable link graph with `max_pages = N > 0` processes exactly `N` pages,
then the stop flag flips, the remaining queue entries are drained without
processing, and in general its processed-page counter never exceeds the
cap. -/
theorem max_pages_cap_single_worker (N fuel fuel2 : Nat) (cfg : Config)
    (w : World) (base : String) (st : CrawlState)
    (hN : 0 < N) (hfuel : N ≤ fuel)
    (hmax : cfg.max_pages ≠ 0)
    (hpp : st.pages_processed ≤ cfg.max_pages)
    (hrun : st.running = true → st.pages_processed < cfg.max_pages) :
    runWorker ⟨false, N⟩ wChain "" fuel ⟨[], [], [urlOf 0], 0, true, []⟩
        = ⟨storeAt N, [], [], N, false, fetchedAt N⟩
      ∧ (runWorker cfg w base fuel2 st).pages_processed ≤ cfg.max_pages := by
  constructor
  · exact chain_run N (N - 1) 0 fuel (by omega) (by omega)
  · exact runWorker_cap cfg w base fuel2 st hmax hpp hrun

/-- Witness for C3's amended statement: with `max_pages = 2` and fuel 5 the
single worker stops at exactly 2 pages with a drained queue, and a
`max_pages = 1` run never exceeds its cap. -/
theorem max_pages_cap_single_worker_witness :
    runWorker ⟨false, 2⟩ wChain "" 5 ⟨[], [], [urlOf 0], 0, true, []⟩
        = ⟨storeAt 2, [], [], 2, false, fetchedAt 2⟩
      ∧ (runWorker ⟨false, 1⟩ wChain "" 3
          ⟨[], [], [], 0, true, []⟩).pages_processed ≤ 1 := by
  exact max_pages_cap_single_worker 2 5 3 ⟨false, 1⟩ wChain ""
    ⟨[], [], [], 0, true, []⟩ (by decide) (by decide) (by decide) (by decide)
    (fun _ => by decide)

theorem mem_resolveList (base v : String) : ∀ cs : List Sitemap,
    v ∈ resolveList base cs ↔ ∃ c ∈ cs, v ∈ resolveSitemap base c := by
  intro cs
  induction cs with
  | nil => simp [resolveList]
  | cons c cs ih =>
    rw [resolveList, Finset.mem_union, ih]
    simp

theorem resolve_contains_aux (base : String) : ∀ (n : Nat) (sm : Sitemap),
    sizeOf sm ≤ n → ∀ u ∈ resolveSitemap base sm,
    containsSub base u = true := by
  intro n
  induction n with
  | zero =>
    intro sm hle
    exfalso
    cases sm <;> simp at hle
  | succ n ih =>
    intro sm hle u hu
    cases sm with
    | failed => simp [resolveSitemap] at hu
    | pages ls =>
      rw [resolveSitemap] at hu
      simp only [List.mem_toFinset, List.mem_filter] at hu
      exact hu.2
    | index cs =>
      rw [resolveSitemap, mem_resolveList] at hu
      obtain ⟨c, hc, hu2⟩ := hu
      refine ih c ?_ u hu2
      have h1 := List.sizeOf_lt_of_mem hc
      have h2 : sizeOf (Sitemap.index cs) = 1 + sizeOf cs := by simp
      omega

/-- C5: a sitemap index resolves to the union of its children's URL sets
(for two children the literal union; in general membership in the index's
resolution is membership in some child's), every resolved URL passed the
substring domain-containment check — so out-of-domain URLs listed in any
child are excluded — and a terminal page file contributes exactly its
normalized, containment-checked locs. -/
theorem sitemap_union_and_domain (base : String) (c1 c2 : Sitemap)
    (cs : List Sitemap) (u v x : String) (ls : List String) (sm : Sitemap)
    (hu : u ∈ resolveSitemap base sm) :
    resolveSitemap base (.index [c1, c2])
        = resolveSitemap base c1 ∪ resolveSitemap base c2
      ∧ (v ∈ resolveSitemap base (.index cs)
          ↔ ∃ c ∈ cs, v ∈ resolveSitemap base c)
      ∧ containsSub base u = true
      ∧ (x ∈ resolveSitemap base (.pages ls)
          ↔ ∃ l ∈ ls, x = normalize_url l ∧ containsSub base x = true) := by
  refine ⟨?_, ?_, ?_, ?_⟩
  · rw [resolveSitemap, resolveList, resolveList, resolveList,
      Finset.union_empty]
  · rw [resolveSitemap, mem_resolveList]
  · exact resolve_contains_aux base (sizeOf sm) sm (le_refl _) u hu
  · rw [resolveSitemap]
    simp only [List.mem_toFinset, List.mem_filter, List.mem_map]
    constructor
    · intro ⟨⟨l, hl, he⟩, hx⟩
      exact ⟨l, hl, he.symm, hx⟩
    · intro ⟨l, hl, he, hx⟩
      exact ⟨⟨l, hl, he.symm⟩, hx⟩

/-- Witness for C5 at a concrete two-child index with one out-of-domain
entry. -/
theorem sitemap_union_and_domain_witness :
    resolveSitemap "example.com"
        (.index [.pages ["http://example.com/a", "http://other.org/z"],
          .pages ["http://example.com/b"]])
        = resolveSitemap "example.com"
            (.pages ["http://example.com/a", "http://other.org/z"])
          ∪ resolveSitemap "example.com" (.pages ["http://example.com/b"])
      ∧ ("http://example.com/a"
          ∈ resolveSitemap "example.com"
            (.index [.pages ["http://example.com/a", "http://other.org/z"]])
          ↔ ∃ c ∈ [Sitemap.pages ["http://example.com/a", "http://other.org/z"]],
            "http://example.com/a" ∈ resolveSitemap "example.com" c)
      ∧ containsSub "example.com" "http://example.com/a" = true
      ∧ ("http://other.org/z"
          ∈ resolveSitemap "example.com"
            (.pages ["http://example.com/a", "http://other.org/z"])
          ↔ ∃ l ∈ ["http://example.com/a", "http://other.org/z"],
            "http://other.org/z" = normalize_url l
              ∧ containsSub "example.com" "http://other.org/z" = true) := by
  refine sitemap_union_and_domain "example.com" _ _ _ "http://example.com/a"
    "http://example.com/a" "http://other.org/z"
    ["http://example.com/a", "http://other.org/z"]
    (.pages ["http://example.com/a", "http://other.org/z"]) ?_
  rw [resolveSitemap]
  decide

/-- C7: an empty resolved sitemap URL set — a failed fetch, an empty page
file, or one whose entries are all out of domain — makes `setup` fall back
to seeding exactly the start URL; a sitemap error is swallowed into an
empty resolution rather than aborting the crawl. -/
theorem sitemap_empty_fallback (base start : String)
    (store : List VisitedRecord) (sm : Sitemap) (ls : List String)
    (hres : resolveSitemap base sm = ∅)
    (hls : ∀ l ∈ ls, containsSub base (normalize_url l) = false) :
    seedQueue (resolveSitemap base sm) store start = [start]
      ∧ resolveSitemap base .failed = ∅
      ∧ resolveSitemap base (.pages []) = ∅
      ∧ resolveSitemap base (.pages ls) = ∅ := by
  refine ⟨?_, by rw [resolveSitemap], ?_, ?_⟩
  · rw [hres, seedQueue]
    simp [Finset.filter_empty]
  · rw [resolveSitemap]
    simp
  · rw [resolveSitemap]
    apply Finset.eq_empty_iff_forall_not_mem.2
    intro x hx
    simp only [List.mem_toFinset, List.mem_filter, List.mem_map] at hx
    obtain ⟨⟨l, hl, he⟩, hc⟩ := hx
    rw [← he, hls l hl] at hc
    exact Bool.false_ne_true hc

/-- Witness for C7: an offline sitemap and an all-out-of-domain page file
both seed only the start URL. -/
theorem sitemap_empty_fallback_witness :
    seedQueue (resolveSitemap "example.com" .failed) []
        "http://example.com/" = ["http://example.com/"]
      ∧ resolveSitemap "example.com" .failed = ∅
      ∧ resolveSitemap "example.com" (.pages []) = ∅
      ∧ resolveSitemap "example.com" (.pages ["http://other.org/x"]) = ∅ := by
  refine sitemap_empty_fallback "example.com" "http://example.com/" [] .failed
    ["http://other.org/x"] (by rw [resolveSitemap]) ?_
  decide
